import Mathlib

/-!
Shallow embedding of `tiny-keccak` (`src/lib.rs`): the Keccak-f[1600]
permutation and the sponge driver (absorb / pad / squeeze) built on it.

Machine integers are modelled as `Nat` with explicit reduction modulo `2 ^ 64`
where the `u64` arithmetic wraps; the 1600-bit state is modelled as its
200-entry little-endian byte serialization (a `List Nat` of byte values), with
`bytesToLanes` / `lanesToBytes` converting to the 25-lane `u64` view exactly
where the source reinterprets the `[u64; 25]` array as bytes and back.
-/

namespace TinyKeccak

/-- Rotation offset table `RHO` from the source. -/
def RHO : List Nat :=
  [1, 3, 6, 10, 15, 21,
   28, 36, 45, 55, 2, 14,
   27, 41, 56, 8, 25, 43,
   62, 18, 39, 61, 20, 44]

/-- Lane destination table `PI` from the source. -/
def PI : List Nat :=
  [10, 7, 11, 17, 18, 3,
   5, 16, 8, 21, 24, 4,
   15, 23, 19, 13, 12, 2,
   20, 14, 22, 9, 6, 1]

/-- Round constant table `RC` from the source. -/
def RC : List Nat :=
  [1, 0x8082, 0x800000000000808a, 0x8000000080008000,
   0x808b, 0x80000001, 0x8000000080008081, 0x8000000000008009,
   0x8a, 0x88, 0x80008009, 0x8000000a,
   0x8000808b, 0x800000000000008b, 0x8000000000008089, 0x8000000000008003,
   0x8000000000008002, 0x8000000000000080, 0x800a, 0x800000008000000a,
   0x8000000080008081, 0x8000000000008080, 0x80000001, 0x8000000080008008]

/-- Source `u64::rotate_left`: 64-bit rotation with wraparound, on `Nat` values below
`2 ^ 64`. -/
def rotl64 (x n : Nat) : Nat :=
  ((x <<< (n % 64)) % 2 ^ 64) ||| (x >>> (64 - n % 64))

/-- Bitwise complement on a `u64` value, `!x` in the source. -/
def not64 (x : Nat) : Nat := x ^^^ (2 ^ 64 - 1)

/-- Scratch value `b[x]` as computed by the first `FOR5` loop nest of theta: the XOR of the
five lanes `a[x + y]` of column `x` (`y` runs over `0, 5, 10, 15, 20`). -/
def colParity (a : List Nat) (x : Nat) : Nat :=
  a.getD x 0 ^^^ a.getD (x + 5) 0 ^^^ a.getD (x + 10) 0 ^^^ a.getD (x + 15) 0 ^^^
    a.getD (x + 20) 0

/-- The second `FOR5` loop nest of theta, at lane `i = y + x`:
`a[y + x] ^ (b[(x + 4) % 5] ^ b[(x + 1) % 5].rotate_left(1))`, with
`x = i % 5`. -/
def thetaLane (a b : List Nat) (i : Nat) : Nat :=
  a.getD i 0 ^^^ (b.getD ((i % 5 + 4) % 5) 0 ^^^ rotl64 (b.getD ((i % 5 + 1) % 5) 0) 1)

/-- Theta step of one round, with the 25 lane updates unrolled as in the
source's `FOR5` macros. -/
def theta (a : List Nat) : List Nat :=
  let b : List Nat := [colParity a 0, colParity a 1, colParity a 2, colParity a 3,
    colParity a 4]
  [thetaLane a b 0, thetaLane a b 1, thetaLane a b 2, thetaLane a b 3, thetaLane a b 4,
   thetaLane a b 5, thetaLane a b 6, thetaLane a b 7, thetaLane a b 8, thetaLane a b 9,
   thetaLane a b 10, thetaLane a b 11, thetaLane a b 12, thetaLane a b 13, thetaLane a b 14,
   thetaLane a b 15, thetaLane a b 16, thetaLane a b 17, thetaLane a b 18, thetaLane a b 19,
   thetaLane a b 20, thetaLane a b 21, thetaLane a b 22, thetaLane a b 23, thetaLane a b 24]

/-- One step of the fused rho-pi loop of `keccakf`:
`b[0] = a[PI[x]]; a[PI[x]] = t.rotate_left(RHO[x]); t = b[0]`, iterated by the
fuel argument (the `REPEAT24` macro runs the body 24 times). -/
def rhopiGo (a : List Nat) (t x : Nat) : Nat → List Nat
  | 0 => a
  | fuel + 1 =>
    rhopiGo (a.set (PI.getD x 0) (rotl64 t (RHO.getD x 0))) (a.getD (PI.getD x 0) 0)
      (x + 1) fuel

/-- Rho and pi steps of one round (`t = a[1]` then the `REPEAT24` loop). -/
def rhopi (a : List Nat) : List Nat := rhopiGo a (a.getD 1 0) 0 24

/-- Chi at lane `i = y + x`: `b[x] ^ ((!b[(x + 1) % 5]) & b[(x + 2) % 5])`,
where `b` is a copy of row `y`, i.e. `b[x] = a[y + x]`. -/
def chiLane (a : List Nat) (i : Nat) : Nat :=
  a.getD (5 * (i / 5) + i % 5) 0 ^^^
    (not64 (a.getD (5 * (i / 5) + (i % 5 + 1) % 5) 0) &&&
      a.getD (5 * (i / 5) + (i % 5 + 2) % 5) 0)

/-- Chi step of one round, with the row loop unrolled. Each row is copied to
the scratch array before being rewritten, so the per-lane value depends only
on the pre-step state. -/
def chi (a : List Nat) : List Nat :=
  [chiLane a 0, chiLane a 1, chiLane a 2, chiLane a 3, chiLane a 4,
   chiLane a 5, chiLane a 6, chiLane a 7, chiLane a 8, chiLane a 9,
   chiLane a 10, chiLane a 11, chiLane a 12, chiLane a 13, chiLane a 14,
   chiLane a 15, chiLane a 16, chiLane a 17, chiLane a 18, chiLane a 19,
   chiLane a 20, chiLane a 21, chiLane a 22, chiLane a 23, chiLane a 24]

/-- Iota step of round `i`: XOR the round constant `RC[i]` into lane 0. -/
def iota (a : List Nat) (i : Nat) : List Nat := a.set 0 (a.getD 0 0 ^^^ RC.getD i 0)

/-- One round of `keccakf`: theta, then rho-pi, then chi, then iota. -/
def keccakRound (a : List Nat) (i : Nat) : List Nat := iota (chi (rhopi (theta a))) i

/-- Function `keccakf`: the Keccak-f[1600] permutation, 24 rounds over the 25-lane
state (`for i in 0..24`). -/
def keccakf (a : List Nat) : List Nat := (List.range 24).foldl keccakRound a

/-- Little-endian byte serialization of a list of `u64` lanes (how the source's
`as_bytes_slice` views the `[u64; 25]` state on a little-endian host, which the
spec fixes as the intended byte order). -/
def lanesToBytes (lanes : List Nat) : List Nat :=
  (lanes.map (fun w => (List.range 8).map (fun j => (w >>> (8 * j)) % 256))).flatten

/-- Decode a little-endian byte serialization back into `u64` lanes, eight
bytes per lane (the sponge state always has exactly `25 * 8 = 200` bytes). -/
def bytesToLanes : List Nat → List Nat
  | b0 :: b1 :: b2 :: b3 :: b4 :: b5 :: b6 :: b7 :: rest =>
    (b0 + 256 * (b1 + 256 * (b2 + 256 * (b3 + 256 * (b4 + 256 * (b5 + 256 *
      (b6 + 256 * b7))))))) :: bytesToLanes rest
  | _ => []

/-- The permutation acting on the 200-byte serialization of the state: decode
to lanes, run `keccakf`, re-serialize. -/
def keccakP (s : List Nat) : List Nat := lanesToBytes (keccakf (bytesToLanes s))

/-!
Checked variant of `keccakf` for the bounds claim: every `get_unchecked` /
`get_unchecked_mut` of the source becomes a bounds-checked access returning
`none` when the index is out of range, including the accesses to the 5-word
scratch array `b` and the `RHO` / `PI` / `RC` tables.  The loop/statement
order follows the source, so the checked run succeeds exactly when every
unchecked index of the source stays in bounds.
-/

/-- Checked read `a[i]`. -/
def getU (a : List Nat) (i : Nat) : Option Nat := a[i]?

/-- Checked write `a[i] = v`. -/
def setU (a : List Nat) (i v : Nat) : Option (List Nat) :=
  if i < a.length then some (a.set i v) else none

/-- Checked `b[x] ^= a[x + y]` (inner statement of theta's first loop nest). -/
def thetaAccC (a b : List Nat) (x y : Nat) : Option (List Nat) := do
  let bv ← getU b x
  let av ← getU a (x + y)
  setU b x (bv ^^^ av)

/-- Checked theta column loop for one `x`: `b[x] = 0` then the five
accumulating XORs with `y = 0, 5, 10, 15, 20`. -/
def thetaColC (a b : List Nat) (x : Nat) : Option (List Nat) := do
  let b ← setU b x 0
  let b ← thetaAccC a b x 0
  let b ← thetaAccC a b x 5
  let b ← thetaAccC a b x 10
  let b ← thetaAccC a b x 15
  thetaAccC a b x 20

/-- Checked first theta loop nest over the five columns. -/
def thetaBC (a b : List Nat) : Option (List Nat) :=
  (List.range 5).foldlM (thetaColC a) b

/-- Checked `a[y + x] ^= b[(x + 4) % 5] ^ b[(x + 1) % 5].rotate_left(1)`. -/
def thetaUpdC (b a : List Nat) (x y : Nat) : Option (List Nat) := do
  let u ← getU b ((x + 4) % 5)
  let v ← getU b ((x + 1) % 5)
  let w ← getU a (y + x)
  setU a (y + x) (w ^^^ (u ^^^ rotl64 v 1))

/-- Checked second theta loop nest: `x` outer (step 1), `y` inner (step 5). -/
def thetaUpdAllC (a b : List Nat) : Option (List Nat) :=
  (List.range 5).foldlM
    (fun a x => [0, 5, 10, 15, 20].foldlM (fun a y => thetaUpdC b a x y) a) a

/-- Checked rho-pi loop body on the state `(a, b, t)`:
`b[0] = a[PI[x]]; a[PI[x]] = t.rotate_left(RHO[x]); t = b[0]`. -/
def rhopiStepC (s : List Nat × List Nat × Nat) (x : Nat) :
    Option (List Nat × List Nat × Nat) := do
  let pix ← PI[x]?
  let rhox ← RHO[x]?
  let av ← getU s.1 pix
  let b ← setU s.2.1 0 av
  let a ← setU s.1 pix (rotl64 s.2.2 rhox)
  let t ← getU b 0
  pure (a, b, t)

/-- Checked rho-pi: `t = a[1]` then 24 iterations of `rhopiStepC`. -/
def rhopiC (a b : List Nat) : Option (List Nat × List Nat) := do
  let t ← getU a 1
  let s ← (List.range 24).foldlM rhopiStepC (a, b, t)
  pure (s.1, s.2.1)

/-- Checked `b[x] = a[y + x]` (chi row copy). -/
def chiCopyC (a : List Nat) (y : Nat) (b : List Nat) (x : Nat) : Option (List Nat) := do
  let av ← getU a (y + x)
  setU b x av

/-- Checked `a[y + x] = b[x] ^ ((!b[(x + 1) % 5]) & b[(x + 2) % 5])`. -/
def chiUpdC (b : List Nat) (y : Nat) (a : List Nat) (x : Nat) : Option (List Nat) := do
  let w ← getU b x
  let u ← getU b ((x + 1) % 5)
  let v ← getU b ((x + 2) % 5)
  setU a (y + x) (w ^^^ (not64 u &&& v))

/-- Checked chi for one row `y`: copy the row into `b`, then rewrite it. -/
def chiRowC (s : List Nat × List Nat) (y : Nat) : Option (List Nat × List Nat) := do
  let b ← (List.range 5).foldlM (chiCopyC s.1 y) s.2
  let a ← (List.range 5).foldlM (chiUpdC b y) s.1
  pure (a, b)

/-- Checked chi over the five rows `y = 0, 5, 10, 15, 20`. -/
def chiC (a b : List Nat) : Option (List Nat × List Nat) :=
  [0, 5, 10, 15, 20].foldlM chiRowC (a, b)

/-- Checked iota: `a[0] ^= RC[i]`. -/
def iotaC (a : List Nat) (i : Nat) : Option (List Nat) := do
  let rc ← RC[i]?
  let w ← getU a 0
  setU a 0 (w ^^^ rc)

/-- One checked round of `keccakf`, carrying the scratch array `b`. -/
def keccakRoundC (s : List Nat × List Nat) (i : Nat) :
    Option (List Nat × List Nat) := do
  let b ← thetaBC s.1 s.2
  let a ← thetaUpdAllC s.1 b
  let ab ← rhopiC a b
  let ab ← chiC ab.1 ab.2
  let a ← iotaC ab.1 i
  pure (a, ab.2)

/-- Checked `keccakf`: 24 rounds with every index access guarded, on a state
slice of arbitrary length (the source's `keccakf` takes any `&mut [u64]`). -/
def keccakfC (a : List Nat) : Option (List Nat) := do
  let s ← (List.range 24).foldlM keccakRoundC (a, List.replicate 5 0)
  pure s.1

/-- The sponge driver `Keccak` from the source. The `[u64; 25]` state array is
modelled by its 200-entry little-endian byte serialization `a`. -/
structure Keccak where
  a : List Nat
  offset : Nat
  rate : Nat
  delim : Nat
deriving DecidableEq

/-- Source `xorin(dst, src, src.len)`: XOR `src` byte-wise into the front of `dst`
(the source's `xorin` loop; the source never runs past `dst`'s end). -/
def xorInto : List Nat → List Nat → List Nat
  | a, [] => a
  | [], _ => []
  | d :: a, x :: xs => (d ^^^ x) :: xorInto a xs

/-- Source `xorin(&mut a[off..], src, src.len)`: XOR `src` byte-wise into `a`
starting at position `off`. -/
def xorAt : List Nat → Nat → List Nat → List Nat
  | a, 0, xs => xorInto a xs
  | [], _ + 1, _ => []
  | d :: a, off + 1, xs => d :: xorAt a off xs

/-- The `while l >= rate` loop of `absorb` after the first full block, where
`offset` has been reset to `0` and `rate` is the full rate: XOR a `rate`-byte
block at position 0, permute (with `P`), repeat; finally XOR in the leftover
and return it as the new offset. Parametric in the permutation `P` so that
theorems can express when the permutation engine is (not) invoked;
the driver instantiates `P := keccakP`. -/
def absorbAuxGo (P : List Nat → List Nat) (rate : Nat) :
    Nat → List Nat → List Nat → List Nat × Nat
  | fuel + 1, a, input =>
    if rate ≤ input.length ∧ 0 < rate then
      absorbAuxGo P rate fuel (P (xorAt a 0 (input.take rate))) (input.drop rate)
    else
      (xorAt a 0 input, input.length)
  | 0, a, input => (xorAt a 0 input, input.length)

/-- The absorb loop at full rate; the fuel `input.length` bounds the number of
loop iterations, each of which consumes `rate ≥ 1` input bytes. -/
def absorbAuxG (P : List Nat → List Nat) (rate : Nat) (a input : List Nat) :
    List Nat × Nat :=
  absorbAuxGo P rate input.length a input

/-- Method `absorb`: the first loop iteration works with `rate - offset` bytes of
room at position `offset`; once a full block is completed the state is
permuted and the remaining input is absorbed from offset 0 (`absorbAuxG`).
If the input fits in the current block it is XORed in at `offset`, which
advances by the input length. -/
def Keccak.absorbG (P : List Nat → List Nat) (k : Keccak) (input : List Nat) :
    Keccak :=
  if k.rate - k.offset ≤ input.length then
    let p := absorbAuxG P k.rate
      (P (xorAt k.a k.offset (input.take (k.rate - k.offset))))
      (input.drop (k.rate - k.offset))
    { k with a := p.1, offset := p.2 }
  else
    { k with a := xorAt k.a k.offset input, offset := k.offset + input.length }

/-- Method `absorb` with the real permutation engine. -/
def Keccak.absorb (k : Keccak) (input : List Nat) : Keccak :=
  k.absorbG keccakP input

/-- Method `update` just forwards to `absorb`. -/
def Keccak.update (k : Keccak) (input : List Nat) : Keccak := k.absorb input

/-- Method `pad`: XOR the delimiter into the byte at `offset`, then XOR `0x80` into
the byte at `rate - 1`. -/
def Keccak.pad (k : Keccak) : Keccak :=
  let a1 := k.a.set k.offset (k.a.getD k.offset 0 ^^^ k.delim)
  let a2 := a1.set (k.rate - 1) (a1.getD (k.rate - 1) 0 ^^^ 0x80)
  { k with a := a2 }

/-- Method `squeeze`: copy `rate`-byte chunks of the state out, permuting between
chunks (`while l >= rate`), and finish with the truncated final chunk. -/
def squeezeGo : Nat → List Nat → Nat → Nat → List Nat
  | fuel + 1, a, rate, outlen =>
    if rate ≤ outlen ∧ 0 < rate then
      a.take rate ++ squeezeGo fuel (keccakP a) rate (outlen - rate)
    else
      a.take outlen
  | 0, a, _, outlen => a.take outlen

/-- Method `squeeze` with fuel `outlen`, which bounds the number of loop iterations,
each of which produces `rate ≥ 1` output bytes. -/
def squeeze (a : List Nat) (rate outlen : Nat) : List Nat :=
  squeezeGo outlen a rate outlen

/-- Method `finalize`: pad, apply `keccakf`, then squeeze `outlen` bytes. -/
def Keccak.finalize (k : Keccak) (outlen : Nat) : List Nat :=
  squeeze (keccakP k.pad.a) k.rate outlen

/-- Constructor `Keccak::new(rate, delim)`: zeroed state, offset 0. -/
def Keccak.new (rate delim : Nat) : Keccak :=
  { a := List.replicate 200 0, offset := 0, rate := rate, delim := delim }

/-- Constructor `impl_constructor!(new_shake128, 128, 0x1f)`. -/
def Keccak.new_shake128 : Keccak := Keccak.new (200 - 128 / 4) 0x1f

/-- Constructor `impl_constructor!(new_shake256, 256, 0x1f)`. -/
def Keccak.new_shake256 : Keccak := Keccak.new (200 - 256 / 4) 0x1f

/-- Constructor `impl_constructor!(new_keccak224, 224, 0x01)`. -/
def Keccak.new_keccak224 : Keccak := Keccak.new (200 - 224 / 4) 0x01

/-- Constructor `impl_constructor!(new_keccak256, 256, 0x01)`. -/
def Keccak.new_keccak256 : Keccak := Keccak.new (200 - 256 / 4) 0x01

/-- Constructor `impl_constructor!(new_keccak384, 384, 0x01)`. -/
def Keccak.new_keccak384 : Keccak := Keccak.new (200 - 384 / 4) 0x01

/-- Constructor `impl_constructor!(new_keccak512, 512, 0x01)`. -/
def Keccak.new_keccak512 : Keccak := Keccak.new (200 - 512 / 4) 0x01

/-- Constructor `impl_constructor!(new_sha3_224, 224, 0x06)`. -/
def Keccak.new_sha3_224 : Keccak := Keccak.new (200 - 224 / 4) 0x06

/-- Constructor `impl_constructor!(new_sha3_256, 256, 0x06)`. -/
def Keccak.new_sha3_256 : Keccak := Keccak.new (200 - 256 / 4) 0x06

/-- Constructor `impl_constructor!(new_sha3_384, 384, 0x06)`. -/
def Keccak.new_sha3_384 : Keccak := Keccak.new (200 - 384 / 4) 0x06

/-- Constructor `impl_constructor!(new_sha3_512, 512, 0x06)`. -/
def Keccak.new_sha3_512 : Keccak := Keccak.new (200 - 512 / 4) 0x06

end TinyKeccak

namespace TinyKeccak

set_option maxRecDepth 100000
set_option maxHeartbeats 4000000

/-! Basic properties of the byte-wise XOR helpers. -/

theorem xorInto_nil (a : List Nat) : xorInto a [] = a := by
  cases a <;> rfl

theorem xorAt_nil (a : List Nat) (off : Nat) : xorAt a off [] = a := by
  induction a generalizing off with
  | nil => cases off <;> rfl
  | cons d a ih =>
    cases off with
    | zero => rfl
    | succ n => simpa [xorAt] using ih n

theorem xorInto_length (a : List Nat) : ∀ xs, (xorInto a xs).length = a.length := by
  induction a with
  | nil => intro xs; cases xs <;> rfl
  | cons d a ih =>
    intro xs
    cases xs with
    | nil => rfl
    | cons x xs => simpa [xorInto] using ih xs

theorem xorAt_length (a : List Nat) : ∀ off xs, (xorAt a off xs).length = a.length := by
  induction a with
  | nil => intro off xs; cases off <;> simp [xorAt, xorInto_length]
  | cons d a ih =>
    intro off xs
    cases off with
    | zero => simpa [xorAt] using xorInto_length _ xs
    | succ n => simpa [xorAt] using ih n xs

theorem xorAt_zero (a xs : List Nat) : xorAt a 0 xs = xorInto a xs := by
  cases a <;> rfl

theorem xorAt_nil_left (off : Nat) (xs : List Nat) : xorAt [] off xs = [] := by
  cases off with
  | zero => cases xs <;> rfl
  | succ n => rfl

theorem xorInto_append (xs : List Nat) :
    ∀ (a ys : List Nat), xorAt (xorInto a xs) xs.length ys = xorInto a (xs ++ ys) := by
  induction xs with
  | nil => intro a ys; rw [xorInto_nil, List.nil_append, List.length_nil, xorAt_zero]
  | cons x xs ih =>
    intro a ys
    cases a with
    | nil => simp [xorInto, xorAt_nil_left]
    | cons d a => simpa [xorInto, xorAt] using ih a ys

theorem xorAt_append (off : Nat) :
    ∀ (a xs ys : List Nat),
      xorAt (xorAt a off xs) (off + xs.length) ys = xorAt a off (xs ++ ys) := by
  induction off with
  | zero =>
    intro a xs ys
    rw [Nat.zero_add, xorAt_zero, xorAt_zero]
    exact xorInto_append xs a ys
  | succ n ih =>
    intro a xs ys
    cases a with
    | nil => simp [xorAt_nil_left]
    | cons d a =>
      have harith : n + 1 + xs.length = (n + xs.length) + 1 := by omega
      simp only [xorAt, harith]
      simpa [xorAt] using ih a xs ys

/-! Unfolding equations for the fuelled absorb loop: the fuel only bounds the
iteration count, so any fuel at least `input.length` gives the same result. -/

theorem absorbAuxGo_irrel (P : List Nat → List Nat) (rate : Nat) :
    ∀ f g a input, input.length ≤ f → input.length ≤ g →
      absorbAuxGo P rate f a input = absorbAuxGo P rate g a input := by
  intro f
  induction f with
  | zero =>
    intro g a input hf hg
    cases g with
    | zero => rfl
    | succ m =>
      show _ = if rate ≤ input.length ∧ 0 < rate then _ else _
      rw [if_neg (by omega)]
      rfl
  | succ n ih =>
    intro g a input hf hg
    cases g with
    | zero =>
      show (if rate ≤ input.length ∧ 0 < rate then _ else _) = _
      rw [if_neg (by omega)]
      rfl
    | succ m =>
      show (if rate ≤ input.length ∧ 0 < rate then _ else _)
          = if rate ≤ input.length ∧ 0 < rate then _ else _
      by_cases hc : rate ≤ input.length ∧ 0 < rate
      · rw [if_pos hc, if_pos hc]
        exact ih m _ _ (by simp only [List.length_drop]; omega)
          (by simp only [List.length_drop]; omega)
      · rw [if_neg hc, if_neg hc]

theorem absorbAuxG_of_lt (P : List Nat → List Nat) (rate : Nat) (a input : List Nat)
    (h : input.length < rate) :
    absorbAuxG P rate a input = (xorAt a 0 input, input.length) := by
  unfold absorbAuxG
  cases hl : input.length with
  | zero => simp [absorbAuxGo, hl]
  | succ n =>
    show (if rate ≤ input.length ∧ 0 < rate then _ else _) = _
    rw [if_neg (by omega), hl]

theorem absorbAuxG_of_le (P : List Nat → List Nat) (rate : Nat) (a input : List Nat)
    (hr : 0 < rate) (h : rate ≤ input.length) :
    absorbAuxG P rate a input
      = absorbAuxG P rate (P (xorAt a 0 (input.take rate))) (input.drop rate) := by
  unfold absorbAuxG
  obtain ⟨n, hn⟩ : ∃ n, input.length = n + 1 := ⟨input.length - 1, by omega⟩
  rw [hn]
  show (if rate ≤ input.length ∧ 0 < rate then _ else _) = _
  rw [if_pos ⟨h, hr⟩]
  exact absorbAuxGo_irrel P rate n _ _ _ (by simp only [List.length_drop]; omega)
    (by simp only [List.length_drop]; omega)

/-! Unfolding equations for `Keccak.absorbG`. -/

theorem absorbG_of_le (P : List Nat → List Nat) (k : Keccak) (input : List Nat)
    (h : k.rate - k.offset ≤ input.length) :
    k.absorbG P input
      = { k with
          a := (absorbAuxG P k.rate
            (P (xorAt k.a k.offset (input.take (k.rate - k.offset))))
            (input.drop (k.rate - k.offset))).1,
          offset := (absorbAuxG P k.rate
            (P (xorAt k.a k.offset (input.take (k.rate - k.offset))))
            (input.drop (k.rate - k.offset))).2 } := by
  rw [Keccak.absorbG, if_pos h]

theorem absorbG_of_lt (P : List Nat → List Nat) (k : Keccak) (input : List Nat)
    (h : input.length < k.rate - k.offset) :
    k.absorbG P input
      = { k with a := xorAt k.a k.offset input, offset := k.offset + input.length } := by
  rw [Keccak.absorbG, if_neg (by omega)]

/-! Unfolding equations for the fuelled squeeze loop. -/

theorem squeezeGo_irrel :
    ∀ f g a rate outlen, outlen ≤ f → outlen ≤ g →
      squeezeGo f a rate outlen = squeezeGo g a rate outlen := by
  intro f
  induction f with
  | zero =>
    intro g a rate outlen hf hg
    cases g with
    | zero => rfl
    | succ m =>
      show _ = if rate ≤ outlen ∧ 0 < rate then _ else _
      rw [if_neg (by omega)]
      rfl
  | succ n ih =>
    intro g a rate outlen hf hg
    cases g with
    | zero =>
      show (if rate ≤ outlen ∧ 0 < rate then _ else _) = _
      rw [if_neg (by omega)]
      rfl
    | succ m =>
      show (if rate ≤ outlen ∧ 0 < rate then _ else _)
          = if rate ≤ outlen ∧ 0 < rate then _ else _
      by_cases hc : rate ≤ outlen ∧ 0 < rate
      · rw [if_pos hc, if_pos hc, ih m _ _ _ (by omega) (by omega)]
      · rw [if_neg hc, if_neg hc]

theorem squeeze_of_lt (a : List Nat) (rate outlen : Nat) (h : outlen < rate) :
    squeeze a rate outlen = a.take outlen := by
  unfold squeeze
  cases outlen with
  | zero => rfl
  | succ n =>
    show (if rate ≤ n + 1 ∧ 0 < rate then _ else _) = _
    rw [if_neg (by omega)]

theorem squeeze_of_le (a : List Nat) (rate outlen : Nat) (hr : 0 < rate)
    (h : rate ≤ outlen) :
    squeeze a rate outlen = a.take rate ++ squeeze (keccakP a) rate (outlen - rate) := by
  unfold squeeze
  obtain ⟨n, rfl⟩ : ∃ n, outlen = n + 1 := ⟨outlen - 1, by omega⟩
  show (if rate ≤ n + 1 ∧ 0 < rate then _ else _) = _
  rw [if_pos ⟨h, hr⟩]
  exact congrArg _ (squeezeGo_irrel n (n + 1 - rate) _ _ _ (by omega) (by omega))

/-! Bookkeeping: the offset produced by the absorb loop, and the fields left
untouched by it. -/

theorem absorbAuxG_snd (P : List Nat → List Nat) (rate : Nat) (hr : 0 < rate) :
    ∀ n a input, input.length ≤ n →
      (absorbAuxG P rate a input).2 = input.length % rate := by
  intro n
  induction n with
  | zero =>
    intro a input h
    rw [absorbAuxG_of_lt P rate a input (by omega)]
    exact (Nat.mod_eq_of_lt (by omega)).symm
  | succ n ih =>
    intro a input h
    by_cases hc : rate ≤ input.length
    · rw [absorbAuxG_of_le P rate a input hr hc,
        ih _ _ (by simp only [List.length_drop]; omega)]
      simp only [List.length_drop]
      exact (Nat.mod_eq_sub_mod hc).symm
    · rw [absorbAuxG_of_lt P rate a input (by omega)]
      exact (Nat.mod_eq_of_lt (by omega)).symm

theorem absorbG_offset (P : List Nat → List Nat) (k : Keccak) (input : List Nat)
    (hr : 0 < k.rate) (ho : k.offset ≤ k.rate) :
    (k.absorbG P input).offset = (k.offset + input.length) % k.rate := by
  by_cases h : k.rate - k.offset ≤ input.length
  · rw [absorbG_of_le P k input h]
    simp only
    rw [absorbAuxG_snd P k.rate hr _ _ _ le_rfl]
    simp only [List.length_drop]
    have heq : k.offset + input.length
        = (input.length - (k.rate - k.offset)) + k.rate := by omega
    rw [heq, Nat.add_mod_right]
  · rw [absorbG_of_lt P k input (by omega)]
    simp only
    exact (Nat.mod_eq_of_lt (by omega)).symm

theorem absorbG_rate (P : List Nat → List Nat) (k : Keccak) (input : List Nat) :
    (k.absorbG P input).rate = k.rate ∧ (k.absorbG P input).delim = k.delim := by
  rw [Keccak.absorbG]
  split <;> exact ⟨rfl, rfl⟩

theorem absorbG_nil (P : List Nat → List Nat) (k : Keccak) (h : k.offset < k.rate) :
    k.absorbG P [] = k := by
  rw [absorbG_of_lt P k [] (by simp only [List.length_nil]; omega)]
  rw [xorAt_nil]
  rfl

/-! Length preservation: the state stays a 200-byte (25-lane) buffer. -/

theorem keccakRound_length (a : List Nat) (i : Nat) : (keccakRound a i).length = 25 := by
  simp [keccakRound, iota, chi]

theorem foldl_keccakRound_length :
    ∀ (l : List Nat) (a : List Nat), a.length = 25 → (l.foldl keccakRound a).length = 25 := by
  intro l
  induction l with
  | nil => intro a h; exact h
  | cons i l ih => intro a h; exact ih _ (keccakRound_length a i)

theorem keccakf_length (a : List Nat) (h : a.length = 25) : (keccakf a).length = 25 :=
  foldl_keccakRound_length _ a h

theorem bytesToLanes_length : ∀ s : List Nat, (bytesToLanes s).length = s.length / 8 := by
  intro s
  induction s using bytesToLanes.induct with
  | case1 b0 b1 b2 b3 b4 b5 b6 b7 rest ih =>
    simp only [bytesToLanes, List.length_cons, ih]
    omega
  | case2 s h =>
    -- lists with fewer than 8 elements are mapped to []
    rcases s with _ | ⟨x0, _ | ⟨x1, _ | ⟨x2, _ | ⟨x3, _ | ⟨x4, _ | ⟨x5, _ | ⟨x6, _ | ⟨x7, s⟩⟩⟩⟩⟩⟩⟩⟩ <;>
      first
        | exact (h _ _ _ _ _ _ _ _ _ rfl).elim
        | (show ([] : List Nat).length = _
           simp)

theorem lanesToBytes_length : ∀ l : List Nat, (lanesToBytes l).length = 8 * l.length := by
  intro l
  induction l with
  | nil => rfl
  | cons w l ih =>
    simp only [lanesToBytes, List.map_cons, List.flatten_cons, List.length_append,
      List.length_map, List.length_range, List.length_cons]
    simp only [lanesToBytes] at ih
    omega

theorem keccakP_length (s : List Nat) (h : s.length = 200) : (keccakP s).length = 200 := by
  rw [keccakP, lanesToBytes_length, keccakf_length]
  rw [bytesToLanes_length, h]

theorem absorbAuxGo_succ (P : List Nat → List Nat) (rate n : Nat) (a input : List Nat) :
    absorbAuxGo P rate (n + 1) a input
      = if rate ≤ input.length ∧ 0 < rate then
          absorbAuxGo P rate n (P (xorAt a 0 (input.take rate))) (input.drop rate)
        else (xorAt a 0 input, input.length) := rfl

theorem absorbAuxGo_fst_length (P : List Nat → List Nat) (rate : Nat)
    (hP : ∀ s, s.length = 200 → (P s).length = 200) :
    ∀ fuel a input, a.length = 200 → ((absorbAuxGo P rate fuel a input).1).length = 200 := by
  intro fuel
  induction fuel with
  | zero => intro a input h; simpa [absorbAuxGo, xorAt_length] using h
  | succ n ih =>
    intro a input h
    rw [absorbAuxGo_succ]
    by_cases hc : rate ≤ input.length ∧ 0 < rate
    · rw [if_pos hc]
      exact ih _ _ (hP _ (by rw [xorAt_length]; exact h))
    · rw [if_neg hc]
      simpa [xorAt_length] using h

theorem absorbG_length (P : List Nat → List Nat) (k : Keccak) (input : List Nat)
    (hP : ∀ s, s.length = 200 → (P s).length = 200) (h : k.a.length = 200) :
    (k.absorbG P input).a.length = 200 := by
  rw [Keccak.absorbG]
  split
  · exact absorbAuxGo_fst_length P k.rate hP _ _ _ (hP _ (by rw [xorAt_length]; exact h))
  · simpa [xorAt_length] using h

theorem update_length (k : Keccak) (input : List Nat) (h : k.a.length = 200) :
    (k.update input).a.length = 200 :=
  absorbG_length keccakP k input keccakP_length h

theorem pad_length (k : Keccak) (h : k.a.length = 200) : k.pad.a.length = 200 := by
  simpa [Keccak.pad] using h

/-! Streaming equivalence: absorbing `xs ++ ys` equals absorbing `xs` then
`ys`, for any permutation `P`. -/

theorem absorbG_mk_of_le (P : List Nat → List Nat) (a : List Nat) (off rate d : Nat)
    (input : List Nat) (h : rate - off ≤ input.length) :
    Keccak.absorbG P ⟨a, off, rate, d⟩ input
      = ⟨(absorbAuxG P rate (P (xorAt a off (input.take (rate - off))))
            (input.drop (rate - off))).1,
         (absorbAuxG P rate (P (xorAt a off (input.take (rate - off))))
            (input.drop (rate - off))).2, rate, d⟩ := by
  rw [absorbG_of_le P _ input h]

theorem absorbG_mk_of_lt (P : List Nat → List Nat) (a : List Nat) (off rate d : Nat)
    (input : List Nat) (h : input.length < rate - off) :
    Keccak.absorbG P ⟨a, off, rate, d⟩ input
      = ⟨xorAt a off input, off + input.length, rate, d⟩ := by
  rw [absorbG_of_lt P _ input h]

theorem absorbG_push (P : List Nat → List Nat) (rate d : Nat) (hr : 0 < rate)
    (xs a ys : List Nat) (hxs : xs.length < rate) :
    Keccak.absorbG P ⟨xorAt a 0 xs, xs.length, rate, d⟩ ys
      = ⟨(absorbAuxG P rate a (xs ++ ys)).1, (absorbAuxG P rate a (xs ++ ys)).2,
         rate, d⟩ := by
  by_cases hy : rate - xs.length ≤ ys.length
  · rw [absorbG_mk_of_le P _ _ rate d ys hy]
    rw [absorbAuxG_of_le P rate a (xs ++ ys) hr (by simp only [List.length_append]; omega)]
    rw [List.take_append_eq_append_take, List.drop_append_eq_append_drop]
    rw [List.take_of_length_le (le_of_lt hxs), List.drop_of_length_le (le_of_lt hxs),
      List.nil_append]
    rw [← xorAt_append 0 a xs (ys.take (rate - xs.length))]
    simp [Nat.zero_add]
  · rw [absorbG_mk_of_lt P _ _ rate d ys (by omega)]
    rw [absorbAuxG_of_lt P rate a (xs ++ ys) (by simp only [List.length_append]; omega)]
    rw [← xorAt_append 0 a xs ys]
    simp [Nat.zero_add, List.length_append]

theorem absorbAuxG_append (P : List Nat → List Nat) (rate d : Nat) (hr : 0 < rate) :
    ∀ n xs a ys, xs.length ≤ n →
      Keccak.absorbG P
          ⟨(absorbAuxG P rate a xs).1, (absorbAuxG P rate a xs).2, rate, d⟩ ys
        = ⟨(absorbAuxG P rate a (xs ++ ys)).1, (absorbAuxG P rate a (xs ++ ys)).2,
           rate, d⟩ := by
  intro n
  induction n with
  | zero =>
    intro xs a ys h
    have hxs : xs.length < rate := by omega
    rw [absorbAuxG_of_lt P rate a xs hxs]
    exact absorbG_push P rate d hr xs a ys hxs
  | succ n ih =>
    intro xs a ys h
    by_cases hc : rate ≤ xs.length
    · rw [absorbAuxG_of_le P rate a xs hr hc]
      rw [absorbAuxG_of_le P rate a (xs ++ ys) hr
        (by simp only [List.length_append]; omega)]
      rw [List.take_append_of_le_length hc, List.drop_append_of_le_length hc]
      exact ih (xs.drop rate) _ ys (by simp only [List.length_drop]; omega)
    · have hxs : xs.length < rate := by omega
      rw [absorbAuxG_of_lt P rate a xs hxs]
      exact absorbG_push P rate d hr xs a ys hxs

theorem absorbG_append (P : List Nat → List Nat) (k : Keccak) (xs ys : List Nat)
    (hr : 0 < k.rate) (ho : k.offset ≤ k.rate) :
    (k.absorbG P xs).absorbG P ys = k.absorbG P (xs ++ ys) := by
  obtain ⟨a, off, rate, d⟩ := k
  dsimp only at hr ho ⊢
  by_cases hx : rate - off ≤ xs.length
  · rw [absorbG_mk_of_le P a off rate d xs hx]
    rw [absorbAuxG_append P rate d hr (xs.drop (rate - off)).length _ _ ys le_rfl]
    rw [absorbG_mk_of_le P a off rate d (xs ++ ys)
      (by simp only [List.length_append]; omega)]
    rw [List.take_append_of_le_length hx, List.drop_append_of_le_length hx]
  · rw [absorbG_mk_of_lt P a off rate d xs (by omega)]
    by_cases hy : rate - (off + xs.length) ≤ ys.length
    · rw [absorbG_mk_of_le P _ _ rate d ys hy]
      rw [absorbG_mk_of_le P a off rate d (xs ++ ys)
        (by simp only [List.length_append]; omega)]
      rw [List.take_append_eq_append_take, List.drop_append_eq_append_drop]
      rw [List.take_of_length_le (show xs.length ≤ rate - off by omega),
        List.drop_of_length_le (show xs.length ≤ rate - off by omega),
        List.nil_append]
      rw [← xorAt_append off a xs]
      have h2 : rate - off - xs.length = rate - (off + xs.length) := by omega
      rw [h2]
    · rw [absorbG_mk_of_lt P _ _ rate d ys (by omega)]
      rw [absorbG_mk_of_lt P a off rate d (xs ++ ys)
        (by simp only [List.length_append]; omega)]
      rw [← xorAt_append off a xs ys]
      simp [List.length_append, Nat.add_assoc]

theorem update_append (k : Keccak) (xs ys : List Nat)
    (hr : 0 < k.rate) (ho : k.offset ≤ k.rate) :
    (k.update xs).update ys = k.update (xs ++ ys) :=
  absorbG_append keccakP k xs ys hr ho

theorem update_rate (k : Keccak) (input : List Nat) :
    (k.update input).rate = k.rate ∧ (k.update input).delim = k.delim :=
  absorbG_rate keccakP k input

theorem update_offset (k : Keccak) (input : List Nat)
    (hr : 0 < k.rate) (ho : k.offset ≤ k.rate) :
    (k.update input).offset = (k.offset + input.length) % k.rate :=
  absorbG_offset keccakP k input hr ho

theorem update_offset_lt (k : Keccak) (input : List Nat)
    (hr : 0 < k.rate) (ho : k.offset ≤ k.rate) :
    (k.update input).offset < k.rate := by
  rw [update_offset k input hr ho]
  exact Nat.mod_lt _ hr

theorem fold_update (chunks : List (List Nat)) :
    ∀ k : Keccak, 0 < k.rate → k.offset < k.rate →
      chunks.foldl Keccak.update k = k.update chunks.flatten := by
  induction chunks with
  | nil =>
    intro k hr ho
    exact (absorbG_nil keccakP k ho).symm
  | cons c cs ih =>
    intro k hr ho
    have h1 : (cs.foldl Keccak.update (k.update c)) = (k.update c).update cs.flatten := by
      refine ih (k.update c) ?_ ?_
      · rw [(update_rate k c).1]; exact hr
      · rw [(update_rate k c).1]; exact update_offset_lt k c hr (le_of_lt ho)
    calc (c :: cs).foldl Keccak.update k
        = cs.foldl Keccak.update (k.update c) := rfl
      _ = (k.update c).update cs.flatten := h1
      _ = k.update (c ++ cs.flatten) := update_append k c cs.flatten hr (le_of_lt ho)
      _ = k.update (c :: cs).flatten := by rw [List.flatten_cons]

/-! Squeezing a longer output only appends bytes: the first `N` bytes of an
`M`-byte squeeze equal the `N`-byte squeeze. -/

theorem squeeze_take_eq (rate : Nat) (hr : 0 < rate) (hr200 : rate ≤ 200) :
    ∀ f M N a, M ≤ f → N ≤ M → a.length = 200 →
      (squeeze a rate M).take N = squeeze a rate N := by
  intro f
  induction f with
  | zero =>
    intro M N a hMf hNM ha
    have hM : M = 0 := by omega
    have hN : N = 0 := by omega
    subst hM
    subst hN
    rw [squeeze_of_lt _ _ _ (by omega)]
    simp
  | succ n ih =>
    intro M N a hMf hNM ha
    have hlen : (a.take rate).length = rate := by rw [List.length_take]; omega
    by_cases h1 : rate ≤ N
    · rw [squeeze_of_le a rate M hr (by omega), squeeze_of_le a rate N hr h1]
      rw [List.take_append_eq_append_take]
      rw [List.take_of_length_le (show (a.take rate).length ≤ N by omega)]
      rw [hlen]
      rw [ih (M - rate) (N - rate) (keccakP a) (by omega) (by omega)
        (keccakP_length a ha)]
    · by_cases h2 : rate ≤ M
      · rw [squeeze_of_le a rate M hr h2, squeeze_of_lt a rate N (by omega)]
        rw [List.take_append_eq_append_take]
        rw [hlen]
        have hN0 : N - rate = 0 := by omega
        rw [hN0, List.take_zero, List.append_nil, List.take_take]
        rw [Nat.min_eq_left (by omega)]
      · rw [squeeze_of_lt a rate M (by omega), squeeze_of_lt a rate N (by omega),
          List.take_take, Nat.min_eq_left hNM]

theorem finalize_take (k : Keccak) (N M : Nat) (h : N ≤ M) (hr : 0 < k.rate)
    (hr200 : k.rate ≤ 200) (ha : k.a.length = 200) :
    (k.finalize M).take N = k.finalize N := by
  rw [Keccak.finalize, Keccak.finalize]
  exact squeeze_take_eq k.rate hr hr200 M M N _ le_rfl h
    (keccakP_length _ (pad_length k ha))

/-! Byte-level description of `pad`. -/

theorem pad_getD (k : Keccak) (i : Nat) (hlen : k.a.length = 200)
    (ho : k.offset < k.rate) (hr : k.rate ≤ 200) :
    k.pad.a.getD i 0
      = (k.a.getD i 0 ^^^ (if i = k.offset then k.delim else 0)) ^^^
          (if i = k.rate - 1 then 0x80 else 0) := by
  have hoff : k.offset < k.a.length := by omega
  have hrm : k.rate - 1 < k.a.length := by omega
  show ((k.a.set k.offset (k.a.getD k.offset 0 ^^^ k.delim)).set (k.rate - 1)
      ((k.a.set k.offset (k.a.getD k.offset 0 ^^^ k.delim)).getD (k.rate - 1) 0 ^^^
        0x80)).getD i 0 = _
  by_cases h1 : i = k.rate - 1
  · subst h1
    rw [if_pos rfl]
    simp only [List.getD_eq_getElem?_getD]
    rw [List.getElem?_set_self (by simpa using hrm)]
    by_cases h2 : k.rate - 1 = k.offset
    · rw [if_pos h2, h2]
      rw [List.getElem?_set_self (by simpa using hoff)]
      simp
    · rw [if_neg h2]
      rw [List.getElem?_set_ne (fun he => h2 he.symm)]
      simp
  · rw [if_neg h1]
    simp only [List.getD_eq_getElem?_getD]
    rw [List.getElem?_set_ne (fun he => h1 he.symm)]
    by_cases h2 : i = k.offset
    · subst h2
      rw [if_pos rfl]
      rw [List.getElem?_set_self (by simpa using hoff)]
      simp
    · rw [if_neg h2]
      rw [List.getElem?_set_ne (fun he => h2 he.symm)]
      simp

/-! The checked `keccakf` succeeds on any state of length at least 25: every
guarded access is in bounds. -/

theorem foldlM_some {σ α : Type} (Q : σ → Prop) (f : σ → α → Option σ) :
    ∀ (l : List α), (∀ s x, x ∈ l → Q s → ∃ r, f s x = some r ∧ Q r) →
      ∀ s, Q s → ∃ r, l.foldlM f s = some r ∧ Q r := by
  intro l
  induction l with
  | nil => intro _ s hs; exact ⟨s, rfl, hs⟩
  | cons x l ih =>
    intro hf s hs
    obtain ⟨r1, hr1, hq1⟩ := hf s x (List.mem_cons_self x l) hs
    obtain ⟨r2, hr2, hq2⟩ :=
      ih (fun s y hy => hf s y (List.mem_cons_of_mem x hy)) r1 hq1
    refine ⟨r2, ?_, hq2⟩
    rw [List.foldlM_cons, hr1]
    simpa using hr2

theorem getU_some {a : List Nat} {i : Nat} (h : i < a.length) :
    ∃ v, getU a i = some v :=
  ⟨a[i], by rw [getU, List.getElem?_eq_getElem h]⟩

theorem setU_some {a : List Nat} {i : Nat} (v : Nat) (h : i < a.length) :
    setU a i v = some (a.set i v) := by
  rw [setU, if_pos h]

theorem thetaAccC_some {a b : List Nat} {x y : Nat} (hb : b.length = 5)
    (hx : x < 5) (hxy : x + y < a.length) :
    ∃ b', thetaAccC a b x y = some b' ∧ b'.length = 5 := by
  obtain ⟨bv, hbv⟩ := getU_some (show x < b.length by omega)
  obtain ⟨av, hav⟩ := getU_some hxy
  refine ⟨b.set x (bv ^^^ av), ?_, by simp [hb]⟩
  simp only [thetaAccC, Option.bind_eq_bind, hbv, hav, Option.some_bind]
  exact setU_some _ (by omega)

theorem thetaColC_some {a b : List Nat} {x : Nat} (hb : b.length = 5)
    (hx : x < 5) (ha : 25 ≤ a.length) :
    ∃ b', thetaColC a b x = some b' ∧ b'.length = 5 := by
  obtain ⟨b1, h1, hl1⟩ := thetaAccC_some (a := a) (b := b.set x 0) (y := 0)
    (by simp [hb]) hx (by omega)
  obtain ⟨b2, h2, hl2⟩ := thetaAccC_some (a := a) (b := b1) (y := 5) hl1 hx (by omega)
  obtain ⟨b3, h3, hl3⟩ := thetaAccC_some (a := a) (b := b2) (y := 10) hl2 hx (by omega)
  obtain ⟨b4, h4, hl4⟩ := thetaAccC_some (a := a) (b := b3) (y := 15) hl3 hx (by omega)
  obtain ⟨b5, h5, hl5⟩ := thetaAccC_some (a := a) (b := b4) (y := 20) hl4 hx (by omega)
  refine ⟨b5, ?_, hl5⟩
  simp only [thetaColC, Option.bind_eq_bind, setU_some _ (show x < b.length by omega),
    Option.some_bind, h1, h2, h3, h4, h5]

theorem thetaBC_some {a b : List Nat} (hb : b.length = 5) (ha : 25 ≤ a.length) :
    ∃ b', thetaBC a b = some b' ∧ b'.length = 5 := by
  refine foldlM_some (fun b : List Nat => b.length = 5) (thetaColC a) _ ?_ b hb
  intro s x hx hs
  exact thetaColC_some hs (List.mem_range.mp hx) ha

theorem thetaUpdC_some {b a : List Nat} {x y : Nat} (hb : b.length = 5)
    (hyx : y + x < a.length) :
    ∃ a', thetaUpdC b a x y = some a' ∧ a'.length = a.length := by
  obtain ⟨u, hu⟩ := getU_some (show (x + 4) % 5 < b.length by rw [hb]; omega)
  obtain ⟨v, hv⟩ := getU_some (show (x + 1) % 5 < b.length by rw [hb]; omega)
  obtain ⟨w, hw⟩ := getU_some hyx
  refine ⟨a.set (y + x) (w ^^^ (u ^^^ rotl64 v 1)), ?_, by simp⟩
  simp only [thetaUpdC, Option.bind_eq_bind, hu, hv, hw, Option.some_bind]
  exact setU_some _ hyx

theorem thetaUpdAllC_some {a b : List Nat} (hb : b.length = 5)
    (ha : 25 ≤ a.length) :
    ∃ a', thetaUpdAllC a b = some a' ∧ a'.length = a.length := by
  refine foldlM_some (fun s : List Nat => s.length = a.length) _ _ ?_ a rfl
  intro s x hx hs
  refine foldlM_some (fun s : List Nat => s.length = a.length) _ _ ?_ s hs
  intro s' y hy hs'
  have hx5 : x < 5 := List.mem_range.mp hx
  have hy20 : y ≤ 20 := by fin_cases hy <;> omega
  obtain ⟨a', h', hl'⟩ := thetaUpdC_some (a := s') hb (show y + x < s'.length by omega)
  exact ⟨a', h', by omega⟩

theorem rhopiStepC_some {s : List Nat × List Nat × Nat} {x : Nat}
    (hs : 25 ≤ s.1.length ∧ s.2.1.length = 5) (hx : x < 24) :
    ∃ r, rhopiStepC s x = some r ∧ 25 ≤ r.1.length ∧ r.2.1.length = 5 ∧
      r.1.length = s.1.length := by
  have hpl : x < PI.length := by rw [show PI.length = 24 from rfl]; omega
  have hrl : x < RHO.length := by rw [show RHO.length = 24 from rfl]; omega
  have hall : ∀ p ∈ PI, p < 25 := by decide
  have hpi : PI[x] < 25 := hall _ (List.getElem_mem hpl)
  obtain ⟨av, hav⟩ := getU_some (show PI[x] < s.1.length by omega)
  obtain ⟨tv, htv⟩ := getU_some (show (0 : Nat) < (s.2.1.set 0 av).length by simp [hs.2])
  refine ⟨(s.1.set PI[x] (rotl64 s.2.2 RHO[x]), s.2.1.set 0 av, tv), ?_,
    by simpa using hs.1, by simp [hs.2], by simp⟩
  simp only [rhopiStepC, Option.bind_eq_bind, List.getElem?_eq_getElem hpl,
    List.getElem?_eq_getElem hrl, Option.some_bind, hav,
    setU_some _ (show (0 : Nat) < s.2.1.length by omega),
    setU_some _ (show PI[x] < s.1.length by omega), htv]
  rfl

theorem rhopiC_some {a b : List Nat} (hs : 25 ≤ a.length) (hb : b.length = 5) :
    ∃ r, rhopiC a b = some r ∧ r.1.length = a.length ∧ r.2.length = 5 := by
  obtain ⟨tv, htv⟩ := getU_some (show (1 : Nat) < a.length by omega)
  obtain ⟨r, hr, hq⟩ := foldlM_some
    (fun s : List Nat × List Nat × Nat => s.1.length = a.length ∧ s.2.1.length = 5)
    rhopiStepC (List.range 24)
    (fun s x hx hq => by
      obtain ⟨r, h1, h2, h3, h4⟩ := rhopiStepC_some ⟨by omega, hq.2⟩
        (List.mem_range.mp hx)
      exact ⟨r, h1, by omega, h3⟩)
    (a, b, tv) ⟨rfl, hb⟩
  refine ⟨(r.1, r.2.1), ?_, hq.1, hq.2⟩
  simp only [rhopiC, Option.bind_eq_bind, htv, Option.some_bind, hr]
  rfl

theorem chiCopyC_some {a b : List Nat} {y x : Nat} (hb : b.length = 5)
    (hyx : y + x < a.length) (hx : x < 5) :
    ∃ b', chiCopyC a y b x = some b' ∧ b'.length = 5 := by
  obtain ⟨av, hav⟩ := getU_some hyx
  refine ⟨b.set x av, ?_, by simp [hb]⟩
  simp only [chiCopyC, Option.bind_eq_bind, hav, Option.some_bind]
  exact setU_some _ (by omega)

theorem chiUpdC_some {b a : List Nat} {y x : Nat} (hb : b.length = 5)
    (hyx : y + x < a.length) (hx : x < 5) :
    ∃ a', chiUpdC b y a x = some a' ∧ a'.length = a.length := by
  obtain ⟨w, hw⟩ := getU_some (show x < b.length by omega)
  obtain ⟨u, hu⟩ := getU_some (show (x + 1) % 5 < b.length by rw [hb]; omega)
  obtain ⟨v, hv⟩ := getU_some (show (x + 2) % 5 < b.length by rw [hb]; omega)
  refine ⟨a.set (y + x) (w ^^^ (not64 u &&& v)), ?_, by simp⟩
  simp only [chiUpdC, Option.bind_eq_bind, hw, hu, hv, Option.some_bind]
  exact setU_some _ hyx

theorem chiRowC_some {s : List Nat × List Nat} {y : Nat}
    (hs : 25 ≤ s.1.length ∧ s.2.length = 5) (hy : y ≤ 20) :
    ∃ r, chiRowC s y = some r ∧ r.1.length = s.1.length ∧ r.2.length = 5 := by
  obtain ⟨b', hb', hbl⟩ := foldlM_some (fun b : List Nat => b.length = 5)
    (chiCopyC s.1 y) (List.range 5)
    (fun b x hx hq => chiCopyC_some hq
      (by have := List.mem_range.mp hx; omega) (List.mem_range.mp hx))
    s.2 hs.2
  obtain ⟨a', ha', hal⟩ := foldlM_some (fun a : List Nat => a.length = s.1.length)
    (chiUpdC b' y) (List.range 5)
    (fun a x hx hq => by
      obtain ⟨r, h1, h2⟩ := chiUpdC_some (a := a) hbl
        (show y + x < a.length by have := List.mem_range.mp hx; omega)
        (List.mem_range.mp hx)
      exact ⟨r, h1, by omega⟩)
    s.1 rfl
  refine ⟨(a', b'), ?_, hal, hbl⟩
  simp only [chiRowC, Option.bind_eq_bind, hb', Option.some_bind, ha']
  rfl

theorem chiC_some {a b : List Nat} (ha : 25 ≤ a.length) (hb : b.length = 5) :
    ∃ r, chiC a b = some r ∧ r.1.length = a.length ∧ r.2.length = 5 := by
  refine foldlM_some
    (fun s : List Nat × List Nat => s.1.length = a.length ∧ s.2.length = 5)
    chiRowC _ ?_ (a, b) ⟨rfl, hb⟩
  intro s y hy hq
  have hy20 : y ≤ 20 := by fin_cases hy <;> omega
  obtain ⟨r, h1, h2, h3⟩ := chiRowC_some ⟨by omega, hq.2⟩ hy20
  exact ⟨r, h1, by omega, h3⟩

theorem iotaC_some {a : List Nat} {i : Nat} (ha : 25 ≤ a.length) (hi : i < 24) :
    ∃ a', iotaC a i = some a' ∧ a'.length = a.length := by
  have hrc : i < RC.length := by rw [show RC.length = 24 from rfl]; omega
  obtain ⟨w, hw⟩ := getU_some (show (0 : Nat) < a.length by omega)
  refine ⟨a.set 0 (w ^^^ RC[i]), ?_, by simp⟩
  simp only [iotaC, Option.bind_eq_bind, List.getElem?_eq_getElem hrc,
    Option.some_bind, hw]
  exact setU_some _ (by omega)

theorem keccakRoundC_some {s : List Nat × List Nat} {i : Nat}
    (hs : 25 ≤ s.1.length ∧ s.2.length = 5) (hi : i < 24) :
    ∃ r, keccakRoundC s i = some r ∧ r.1.length = s.1.length ∧ r.2.length = 5 := by
  obtain ⟨b1, hb1, hbl1⟩ := thetaBC_some hs.2 hs.1
  obtain ⟨a1, ha1, hal1⟩ := thetaUpdAllC_some (a := s.1) hbl1 hs.1
  obtain ⟨r2, hr2, hrl2, hbl2⟩ := rhopiC_some (a := a1) (b := b1) (by omega) hbl1
  obtain ⟨r3, hr3, hrl3, hbl3⟩ := chiC_some (a := r2.1) (b := r2.2)
    (by omega) hbl2
  obtain ⟨a4, ha4, hal4⟩ := iotaC_some (a := r3.1) (by omega) hi
  refine ⟨(a4, r3.2), ?_, by show a4.length = s.1.length; omega, hbl3⟩
  simp only [keccakRoundC, Option.bind_eq_bind, hb1, Option.some_bind, ha1, hr2, hr3,
    ha4]
  rfl

theorem keccakfC_some (a : List Nat) (ha : 25 ≤ a.length) :
    ∃ r, keccakfC a = some r ∧ r.length = a.length := by
  obtain ⟨r, hr, hq⟩ := foldlM_some
    (fun s : List Nat × List Nat => s.1.length = a.length ∧ s.2.length = 5)
    keccakRoundC (List.range 24)
    (fun s i hi hq => by
      obtain ⟨r, h1, h2, h3⟩ := keccakRoundC_some ⟨by omega, hq.2⟩
        (List.mem_range.mp hi)
      exact ⟨r, h1, by omega, h3⟩)
    (a, List.replicate 5 0) ⟨rfl, by simp⟩
  refine ⟨r.1, ?_, hq.1⟩
  simp only [keccakfC, Option.bind_eq_bind, hr, Option.some_bind]
  rfl

/-! Pointwise description of the theta step. -/

theorem theta_getD (a : List Nat) (x y : Nat) (hx : x < 5) (hy : y < 5) :
    (theta a).getD (x + 5 * y) 0
      = a.getD (x + 5 * y) 0 ^^^
          (colParity a ((x + 4) % 5) ^^^ rotl64 (colParity a ((x + 1) % 5)) 1) := by
  interval_cases x <;> interval_cases y <;> rfl

/-! Claim theorems. -/

theorem fold_update_offset (r : Nat) (hr : 0 < r) :
    ∀ (inputs : List (List Nat)) (k : Keccak), k.rate = r → k.offset < r →
      (inputs.foldl Keccak.update k).offset
          = (k.offset + (inputs.map List.length).sum) % r ∧
      (inputs.foldl Keccak.update k).rate = r := by
  intro inputs
  induction inputs with
  | nil =>
    intro k hkr hko
    refine ⟨?_, hkr⟩
    rw [List.map_nil, List.sum_nil, Nat.add_zero, Nat.mod_eq_of_lt hko]
    rfl
  | cons c cs ih =>
    intro k hkr hko
    have hkr0 : 0 < k.rate := by omega
    have hup := update_offset k c hkr0 (by omega)
    have hupr := (update_rate k c).1
    obtain ⟨ih1, ih2⟩ := ih (k.update c)
      (by rw [hupr, hkr])
      (by rw [hup, hkr]; exact Nat.mod_lt _ hr)
    constructor
    · calc ((c :: cs).foldl Keccak.update k).offset
          = (cs.foldl Keccak.update (k.update c)).offset := rfl
        _ = ((k.update c).offset + (cs.map List.length).sum) % r := ih1
        _ = ((k.offset + c.length) % r + (cs.map List.length).sum) % r := by
            rw [hup, hkr]
        _ = (k.offset + c.length + (cs.map List.length).sum) % r := by
            rw [Nat.mod_add_mod]
        _ = (k.offset + ((c :: cs).map List.length).sum) % r := by
            rw [List.map_cons, List.sum_cons, Nat.add_assoc]
    · exact ih2

/-- C2: for every driver (hence every variant), every chunk sequence
(empty chunks included) and every output length, updating chunk by chunk and
finalizing gives the same bytes as one update with the concatenation. -/
theorem streaming_equivalence (k : Keccak) (chunks : List (List Nat))
    (outlen : Nat) (hr : 0 < k.rate) (ho : k.offset < k.rate) :
    (chunks.foldl Keccak.update k).finalize outlen
      = (k.update chunks.flatten).finalize outlen := by
  rw [fold_update chunks k hr ho]

/-- Witness for C2 at a concrete driver and chunk list. -/
theorem streaming_equivalence_check :
    0 < Keccak.new_sha3_256.rate ∧
    Keccak.new_sha3_256.offset < Keccak.new_sha3_256.rate ∧
    ([[0x68, 0x65], [], [0x6c, 0x6c, 0x6f]].foldl Keccak.update
        Keccak.new_sha3_256).finalize 32
      = (Keccak.new_sha3_256.update
          [[0x68, 0x65], [], [0x6c, 0x6c, 0x6f]].flatten).finalize 32 :=
  ⟨by decide, by decide,
    streaming_equivalence Keccak.new_sha3_256 [[0x68, 0x65], [], [0x6c, 0x6c, 0x6f]]
      32 (by decide) (by decide)⟩

/-- C3: for the two SHAKE drivers, the first `N` bytes of an `M`-byte
finalize (`N ≤ M`) equal the `N`-byte finalize of the same absorbed input. -/
theorem shake_output_take (input : List Nat) (N M : Nat) (h : N ≤ M) :
    ((Keccak.new_shake128.update input).finalize M).take N
      = (Keccak.new_shake128.update input).finalize N ∧
    ((Keccak.new_shake256.update input).finalize M).take N
      = (Keccak.new_shake256.update input).finalize N := by
  refine ⟨finalize_take _ N M h ?_ ?_ ?_, finalize_take _ N M h ?_ ?_ ?_⟩
  · rw [(update_rate _ input).1]; decide
  · rw [(update_rate _ input).1]; decide
  · exact update_length _ input (by decide)
  · rw [(update_rate _ input).1]; decide
  · rw [(update_rate _ input).1]; decide
  · exact update_length _ input (by decide)

/-- Witness for C3 at a concrete input and lengths. -/
theorem shake_output_take_check :
    (3 : Nat) ≤ 7 ∧
    (((Keccak.new_shake128.update [1, 2]).finalize 7).take 3
        = (Keccak.new_shake128.update [1, 2]).finalize 3 ∧
      ((Keccak.new_shake256.update [1, 2]).finalize 7).take 3
        = (Keccak.new_shake256.update [1, 2]).finalize 3) :=
  ⟨by decide, shake_output_take [1, 2] 3 7 (by decide)⟩

/-- C4: `pad` XORs the delimiter into the byte at `offset` and `0x80` into
the byte at `rate - 1`, leaves every other byte and all bookkeeping fields
unchanged, and when `offset = rate - 1` both XORs land on that single byte. -/
theorem pad_spec (k : Keccak) (i : Nat) (hlen : k.a.length = 200)
    (ho : k.offset < k.rate) (hr : k.rate ≤ 200) :
    k.pad.a.getD i 0
      = (k.a.getD i 0 ^^^ (if i = k.offset then k.delim else 0)) ^^^
          (if i = k.rate - 1 then 0x80 else 0) ∧
    (k.offset = k.rate - 1 →
      k.pad.a.getD k.offset 0 = k.a.getD k.offset 0 ^^^ k.delim ^^^ 0x80) ∧
    k.pad.offset = k.offset ∧ k.pad.rate = k.rate ∧ k.pad.delim = k.delim ∧
    k.pad.a.length = k.a.length := by
  refine ⟨pad_getD k i hlen ho hr, ?_, rfl, rfl, rfl, by simp [Keccak.pad]⟩
  intro he
  rw [pad_getD k k.offset hlen ho hr, if_pos rfl, if_pos he]

/-- Witness for C4 at a concrete driver where `offset = rate - 1`, so both
padding XORs hit the same byte. -/
theorem pad_spec_check :
    (⟨List.replicate 200 0, 3, 4, 0x06⟩ : Keccak).a.length = 200 ∧
    (⟨List.replicate 200 0, 3, 4, 0x06⟩ : Keccak).offset
      < (⟨List.replicate 200 0, 3, 4, 0x06⟩ : Keccak).rate ∧
    (⟨List.replicate 200 0, 3, 4, 0x06⟩ : Keccak).rate ≤ 200 ∧
    ((⟨List.replicate 200 0, 3, 4, 0x06⟩ : Keccak).pad.a.getD 3 0
      = ((⟨List.replicate 200 0, 3, 4, 0x06⟩ : Keccak).a.getD 3 0 ^^^
          (if (3 : Nat) = (⟨List.replicate 200 0, 3, 4, 0x06⟩ : Keccak).offset then
            (⟨List.replicate 200 0, 3, 4, 0x06⟩ : Keccak).delim else 0)) ^^^
          (if (3 : Nat) = (⟨List.replicate 200 0, 3, 4, 0x06⟩ : Keccak).rate - 1 then
            0x80 else 0) ∧
      ((⟨List.replicate 200 0, 3, 4, 0x06⟩ : Keccak).offset
          = (⟨List.replicate 200 0, 3, 4, 0x06⟩ : Keccak).rate - 1 →
        (⟨List.replicate 200 0, 3, 4, 0x06⟩ : Keccak).pad.a.getD
            (⟨List.replicate 200 0, 3, 4, 0x06⟩ : Keccak).offset 0
          = (⟨List.replicate 200 0, 3, 4, 0x06⟩ : Keccak).a.getD
              (⟨List.replicate 200 0, 3, 4, 0x06⟩ : Keccak).offset 0 ^^^
              (⟨List.replicate 200 0, 3, 4, 0x06⟩ : Keccak).delim ^^^ 0x80) ∧
      (⟨List.replicate 200 0, 3, 4, 0x06⟩ : Keccak).pad.offset
        = (⟨List.replicate 200 0, 3, 4, 0x06⟩ : Keccak).offset ∧
      (⟨List.replicate 200 0, 3, 4, 0x06⟩ : Keccak).pad.rate
        = (⟨List.replicate 200 0, 3, 4, 0x06⟩ : Keccak).rate ∧
      (⟨List.replicate 200 0, 3, 4, 0x06⟩ : Keccak).pad.delim
        = (⟨List.replicate 200 0, 3, 4, 0x06⟩ : Keccak).delim ∧
      (⟨List.replicate 200 0, 3, 4, 0x06⟩ : Keccak).pad.a.length
        = (⟨List.replicate 200 0, 3, 4, 0x06⟩ : Keccak).a.length) :=
  ⟨by decide, by decide, by decide,
    pad_spec ⟨List.replicate 200 0, 3, 4, 0x06⟩ 3 (by decide) (by decide) (by decide)⟩

/-- C5: offsets stay in `[0, rate)`: a fresh driver has offset 0; one update
moves the offset to `(offset + len) % rate` (so a completed block resets it
to 0, and a leftover of `len` bytes advances it by `len`); and after any
sequence of updates from a fresh driver the offset is the total absorbed
length mod the rate, hence below the rate. -/
theorem offset_invariant (r d : Nat) (inputs : List (List Nat)) (k : Keccak)
    (input : List Nat) (hr : 0 < r) (hkr : 0 < k.rate) (hko : k.offset ≤ k.rate) :
    (Keccak.new r d).offset = 0 ∧
    (k.update input).offset = (k.offset + input.length) % k.rate ∧
    (input.length < k.rate - k.offset →
      (k.update input).offset = k.offset + input.length) ∧
    (inputs.foldl Keccak.update (Keccak.new r d)).offset
      = (inputs.map List.length).sum % r ∧
    (inputs.foldl Keccak.update (Keccak.new r d)).offset < r := by
  obtain ⟨hfold, _⟩ := fold_update_offset r hr inputs (Keccak.new r d) rfl hr
  refine ⟨rfl, update_offset k input hkr hko, ?_, ?_, ?_⟩
  · intro hlt
    rw [show k.update input = k.absorbG keccakP input from rfl,
      absorbG_of_lt keccakP k input hlt]
  · rw [hfold, show (Keccak.new r d).offset = 0 from rfl, Nat.zero_add]
  · rw [hfold]
    exact Nat.mod_lt _ hr

/-- Witness for C5 at a concrete rate, delimiter, driver and inputs. -/
theorem offset_invariant_check :
    0 < (5 : Nat) ∧ 0 < (⟨List.replicate 200 0, 2, 5, 1⟩ : Keccak).rate ∧
    (⟨List.replicate 200 0, 2, 5, 1⟩ : Keccak).offset
      ≤ (⟨List.replicate 200 0, 2, 5, 1⟩ : Keccak).rate ∧
    ((Keccak.new 5 1).offset = 0 ∧
      ((⟨List.replicate 200 0, 2, 5, 1⟩ : Keccak).update [7, 8]).offset
        = ((⟨List.replicate 200 0, 2, 5, 1⟩ : Keccak).offset + [7, 8].length) %
            (⟨List.replicate 200 0, 2, 5, 1⟩ : Keccak).rate ∧
      ([7, 8].length < (⟨List.replicate 200 0, 2, 5, 1⟩ : Keccak).rate -
          (⟨List.replicate 200 0, 2, 5, 1⟩ : Keccak).offset →
        ((⟨List.replicate 200 0, 2, 5, 1⟩ : Keccak).update [7, 8]).offset
          = (⟨List.replicate 200 0, 2, 5, 1⟩ : Keccak).offset + [7, 8].length) ∧
      ([[1], [2, 3]].foldl Keccak.update (Keccak.new 5 1)).offset
        = ([[1], [2, 3]].map List.length).sum % 5 ∧
      ([[1], [2, 3]].foldl Keccak.update (Keccak.new 5 1)).offset < 5) :=
  ⟨by decide, by decide, by decide,
    offset_invariant 5 1 [[1], [2, 3]] ⟨List.replicate 200 0, 2, 5, 1⟩ [7, 8]
      (by decide) (by decide) (by decide)⟩

/-- C7: each round applies theta first; theta XORs
`B[(x + 4) % 5] ^ rotate_left(B[(x + 1) % 5], 1)` into lane `x + 5 * y`
(with `(x + 4) % 5 = (x - 1) mod 5`), where `B[x] = colParity a x` is the XOR
of the five lanes `x + 5 * y` of column `x`. -/
theorem theta_round_spec (a : List Nat) (x y i : Nat) (ha : a.length = 25)
    (hx : x < 5) (hy : y < 5) :
    keccakRound a i = iota (chi (rhopi (theta a))) i ∧
    (theta a).getD (x + 5 * y) 0
      = a.getD (x + 5 * y) 0 ^^^
          (colParity a ((x + 4) % 5) ^^^ rotl64 (colParity a ((x + 1) % 5)) 1) ∧
    colParity a x
      = a.getD (x + 5 * 0) 0 ^^^ a.getD (x + 5 * 1) 0 ^^^ a.getD (x + 5 * 2) 0 ^^^
          a.getD (x + 5 * 3) 0 ^^^ a.getD (x + 5 * 4) 0 := by
  refine ⟨rfl, theta_getD a x y hx hy, ?_⟩
  simp [colParity]

/-- Witness for C7 at a concrete state and lane. -/
theorem theta_round_spec_check :
    (List.replicate 25 0).length = 25 ∧ (4 : Nat) < 5 ∧ (3 : Nat) < 5 ∧
    (keccakRound (List.replicate 25 0) 0
        = iota (chi (rhopi (theta (List.replicate 25 0)))) 0 ∧
      (theta (List.replicate 25 0)).getD (4 + 5 * 3) 0
        = (List.replicate 25 0).getD (4 + 5 * 3) 0 ^^^
            (colParity (List.replicate 25 0) ((4 + 4) % 5) ^^^
              rotl64 (colParity (List.replicate 25 0) ((4 + 1) % 5)) 1) ∧
      colParity (List.replicate 25 0) 4
        = (List.replicate 25 0).getD (4 + 5 * 0) 0 ^^^
            (List.replicate 25 0).getD (4 + 5 * 1) 0 ^^^
            (List.replicate 25 0).getD (4 + 5 * 2) 0 ^^^
            (List.replicate 25 0).getD (4 + 5 * 3) 0 ^^^
            (List.replicate 25 0).getD (4 + 5 * 4) 0) :=
  ⟨by decide, by decide, by decide,
    theta_round_spec (List.replicate 25 0) 4 3 0 (by decide) (by decide) (by decide)⟩

/-- C9: on any state slice of length at least 25 every unchecked access of
`keccakf` (state array, scratch array `b`, and the `RHO`/`PI`/`RC` tables)
stays in bounds across all 24 rounds — the fully checked run succeeds — and
the bound is necessary: on a 24-lane slice the checked run fails. -/
theorem keccakf_index_bounds :
    (∀ a : List Nat, 25 ≤ a.length → (keccakfC a).isSome = true) ∧
    keccakfC (List.replicate 24 0) = none := by
  constructor
  · intro a ha
    obtain ⟨r, hra, _⟩ := keccakfC_some a ha
    rw [hra]
    rfl
  · decide

/-- Witness for C9 at a concrete 25-lane state. -/
theorem keccakf_index_bounds_check :
    25 ≤ (List.replicate 25 0).length ∧
    (keccakfC (List.replicate 25 0)).isSome = true :=
  ⟨by decide, keccakf_index_bounds.1 (List.replicate 25 0) (by decide)⟩

/-- C10: updating with the empty input changes nothing, for an arbitrary
permutation engine `P` (so the engine is never invoked) and in particular for
the driver's own `update`. -/
theorem update_empty_noop (P : List Nat → List Nat) (k : Keccak)
    (h : k.offset < k.rate) :
    k.absorbG P [] = k ∧ k.update [] = k :=
  ⟨absorbG_nil P k h, absorbG_nil keccakP k h⟩

/-- Witness for C10 at a concrete driver and permutation. -/
theorem update_empty_noop_check :
    Keccak.new_sha3_256.offset < Keccak.new_sha3_256.rate ∧
    (Keccak.new_sha3_256.absorbG id [] = Keccak.new_sha3_256 ∧
      Keccak.new_sha3_256.update [] = Keccak.new_sha3_256) :=
  ⟨by decide, update_empty_noop id Keccak.new_sha3_256 (by decide)⟩

/-- C1: a fresh `new_keccak256` driver finalized into 32 bytes yields the
Keccak-256 empty-input digest; a fresh `new_sha3_256` driver yields the
SHA3-256 empty-input digest; and `new_sha3_256` updated with the five bytes
of `"hello"` yields the claimed SHA3-256 digest of `"hello"`. -/
theorem known_answer_vectors :
    Keccak.new_keccak256.finalize 32 =
      [0xc5, 0xd2, 0x46, 0x01, 0x86, 0xf7, 0x23, 0x3c,
       0x92, 0x7e, 0x7d, 0xb2, 0xdc, 0xc7, 0x03, 0xc0,
       0xe5, 0x00, 0xb6, 0x53, 0xca, 0x82, 0x27, 0x3b,
       0x7b, 0xfa, 0xd8, 0x04, 0x5d, 0x85, 0xa4, 0x70] ∧
    Keccak.new_sha3_256.finalize 32 =
      [0xa7, 0xff, 0xc6, 0xf8, 0xbf, 0x1e, 0xd7, 0x66,
       0x51, 0xc1, 0x47, 0x56, 0xa0, 0x61, 0xd6, 0x62,
       0xf5, 0x80, 0xff, 0x4d, 0xe4, 0x3b, 0x49, 0xfa,
       0x82, 0xd8, 0x0a, 0x4b, 0x80, 0xf8, 0x43, 0x4a] ∧
    (Keccak.new_sha3_256.update [0x68, 0x65, 0x6c, 0x6c, 0x6f]).finalize 32 =
      [0x33, 0x38, 0xbe, 0x69, 0x4f, 0x50, 0xc5, 0xf3,
       0x38, 0x81, 0x49, 0x86, 0xcd, 0xf0, 0x68, 0x64,
       0x53, 0xa8, 0x88, 0xb8, 0x4f, 0x42, 0x4d, 0x79,
       0x2a, 0xf4, 0xb9, 0x20, 0x23, 0x98, 0xf3, 0x92] := by
  refine ⟨?_, ?_, ?_⟩ <;> decide

/-- C6: each of the ten named constructors returns a driver with the all-zero
state (200 zero bytes, i.e. 25 zero lanes), offset 0, rate `200 - bits / 4`,
and the delimiter of its family (`0x1f` SHAKE, `0x01` legacy Keccak, `0x06`
SHA-3). -/
theorem constructor_parameters :
    Keccak.new_shake128 = ⟨List.replicate 200 0, 0, 168, 0x1f⟩ ∧
    Keccak.new_shake256 = ⟨List.replicate 200 0, 0, 136, 0x1f⟩ ∧
    Keccak.new_keccak224 = ⟨List.replicate 200 0, 0, 144, 0x01⟩ ∧
    Keccak.new_keccak256 = ⟨List.replicate 200 0, 0, 136, 0x01⟩ ∧
    Keccak.new_keccak384 = ⟨List.replicate 200 0, 0, 104, 0x01⟩ ∧
    Keccak.new_keccak512 = ⟨List.replicate 200 0, 0, 72, 0x01⟩ ∧
    Keccak.new_sha3_224 = ⟨List.replicate 200 0, 0, 144, 0x06⟩ ∧
    Keccak.new_sha3_256 = ⟨List.replicate 200 0, 0, 136, 0x06⟩ ∧
    Keccak.new_sha3_384 = ⟨List.replicate 200 0, 0, 104, 0x06⟩ ∧
    Keccak.new_sha3_512 = ⟨List.replicate 200 0, 0, 72, 0x06⟩ ∧
    bytesToLanes (List.replicate 200 0) = List.replicate 25 0 := by
  refine ⟨?_, ?_, ?_, ?_, ?_, ?_, ?_, ?_, ?_, ?_, ?_⟩ <;> decide

/-- C8: the permutation engine is a function (two runs on equal states yield
equal results), and on the all-zero 25-lane state it is neither the identity
nor idempotent. -/
theorem keccakf_sanity :
    (∀ s t : List Nat, s = t → keccakf s = keccakf t) ∧
    keccakf (List.replicate 25 0) ≠ List.replicate 25 0 ∧
    keccakf (keccakf (List.replicate 25 0)) ≠ keccakf (List.replicate 25 0) := by
  refine ⟨fun s t h => by rw [h], ?_, ?_⟩ <;> decide

/-- Witness for C8: the determinism conjunct applied at the concrete all-zero
state. -/
theorem keccakf_sanity_check :
    keccakf (List.replicate 25 0) = keccakf (List.replicate 25 0) :=
  keccakf_sanity.1 (List.replicate 25 0) (List.replicate 25 0) rfl

end TinyKeccak
